import Mathlib

/-!
Verification development for the pdflatte PDF-transcription pipeline
(`src/pdflatte_project/Pdflatte/main.py`).

Strings are modelled as `List Char`; Python `None` slots as `Option`.
The thread-pool completion order is modelled as an arbitrary permutation
of the job indices: `concurrent.futures.as_completed` yields each future
exactly once, in an unspecified order.  The resize policy's IEEE-754
double arithmetic is modelled exactly, as dyadic rationals (`Nat`
significand, `Int` exponent) rounded to nearest-even at 53 significant
bits; within the range used here (dimensions below 2^64) no overflow,
underflow or subnormal can occur, so the unbounded exponent is faithful.
-/

set_option autoImplicit false

namespace Pdflatte

universe u

/-! ## Python string helpers -/

/-- Python whitespace characters stripped by `str.strip()`. -/
def isPyWs (c : Char) : Bool :=
  c = ' ' || c = '\t' || c = '\n' || c = '\r' || c = '\x0b' || c = '\x0c'

/-- Python `str.strip()`: drop leading and trailing whitespace. -/
def pyStrip (s : List Char) : List Char :=
  ((s.dropWhile isPyWs).reverse.dropWhile isPyWs).reverse

/-- Does `s` start with the literal `p`? -/
def startsWithL : List Char → List Char → Bool
  | _, [] => true
  | [], _ :: _ => false
  | c :: s, p :: ps => c = p && startsWithL s ps

/-- Python `pat in s`: contiguous-substring test. -/
def strContains : List Char → List Char → Bool
  | [], pat => pat.isEmpty
  | c :: rest, pat => startsWithL (c :: rest) pat || strContains rest pat

/-! ## Remote adapters (`transcribe_image`, `translate_to_arabic`)

The remote call itself is external; its outcome (the value of
`model.generate_content(...)` or the exception raised) is the adapter's
input here.  Everything after that point is embedded from the source. -/

/-- Outcome of the Gemini call inside `transcribe_image`: success,
a `GoogleAPIError`, or any other exception. -/
inductive ApiOutcome : Type
  | ok (t : List Char)
  | apiError (e : List Char)
  | raised (e : List Char)

def transcriptionErrorTag : List Char := "Transcription error: ".toList

def geminiApiErrorTag : List Char := "Gemini API Error: ".toList

/-- The extra guidance appended when the API error message contains "403". -/
def authGuidance : List Char :=
  ("\n\nThis is likely due to API key authentication issues. " ++
   "Please check that your API key is valid and has access to the Gemini API.").toList

/-- Embedding of `transcribe_image` (main.py lines 105-173): the try body
returns the response text; a `GoogleAPIError` is formatted as
`"Transcription error: Gemini API Error: <e>"` with auth guidance appended
when `"403" in str(e)`; any other exception becomes
`"Transcription error: <e>"`.  No exception escapes. -/
def transcribe_image (resp : ApiOutcome) : List Char :=
  match resp with
  | .ok t => t
  | .apiError e =>
      let error_message :=
        geminiApiErrorTag ++ e ++
          (if strContains e "403".toList then authGuidance else [])
      transcriptionErrorTag ++ error_message
  | .raised e => transcriptionErrorTag ++ e

/-- Outcome of the Gemini call inside `translate_to_arabic`: success or
any exception. -/
inductive CallOutcome : Type
  | ok (t : List Char)
  | raised (e : List Char)

def translationErrorTag : List Char := "Translation error: ".toList

/-- Embedding of `translate_to_arabic` (main.py lines 176-211): the try body
returns the response text; any exception becomes
`"Translation error: <e>"`.  No exception escapes. -/
def translate_to_arabic (resp : CallOutcome) : List Char :=
  match resp with
  | .ok t => t
  | .raised e => translationErrorTag ++ e

/-! ## The scheduling round (main.py lines 521-555 and 557-571)

`process_page(page_data)` returns `(i, transcription)`; the unit of work
(resize + transcribe for page `i`) is abstracted as `work : Nat → α`.
`transcription_results = [None] * n` is `List.replicate n none`;
`transcription_results[i] = transcription` is `List.set`. -/

/-- Embedding of `process_page`'s return value: the job index paired with
the result its unit of work produced for that index. -/
def process_page {α : Type u} (work : Nat → α) (i : Nat) : Nat × α :=
  (i, work i)

/-- One completion step: `i, transcription = future.result()` followed by
`transcription_results[i] = transcription`. -/
def schedStep {α : Type u} (work : Nat → α) (results : List (Option α))
    (j : Nat) : List (Option α) :=
  let p := process_page work j
  results.set p.1 (some p.2)

/-- The parallel round (lines 535-541): futures complete in the arbitrary
order `order`; each completion stores its result at its own slot of the
pre-allocated result list. -/
def runParallel {α : Type u} (n : Nat) (work : Nat → α) (order : List Nat) :
    List (Option α) :=
  order.foldl (schedStep work) (List.replicate n none)

/-- The sequential round (lines 559-571): the same slot assignment, one
page at a time in submission order. -/
def runSequential {α : Type u} (n : Nat) (work : Nat → α) : List (Option α) :=
  (List.range n).foldl (schedStep work) (List.replicate n none)

/-- Python's `f"{x}"` on an optional value: `None` prints as `"None"`. -/
def pyShowOpt (o : Option (List Char)) : List Char :=
  match o with
  | some t => t
  | none => "None".toList

/-- The page delimiter used by the assembly loops: `f"\n\n{transcription}"`. -/
def nl2 : List Char := ['\n', '\n']

/-- Assembly of `all_text` from the result list (lines 552-555):
`all_text += f"\n\n{transcription}"` over the results in index order. -/
def assembleAllText (results : List (Option (List Char))) : List Char :=
  results.foldl (fun acc o => acc ++ nl2 ++ pyShowOpt o) []

/-- The stored document (line 578): `st.session_state.all_text = all_text.strip()`. -/
def finalAllText (results : List (Option (List Char))) : List Char :=
  pyStrip (assembleAllText results)

/-- The sequential loop's inline accumulation of `all_text` (line 568). -/
def runSequentialText (n : Nat) (work : Nat → List Char) : List Char :=
  (List.range n).foldl (fun acc i => acc ++ nl2 ++ work i) []

/-- Texts joined by a separator, the spec's reading of the assembled
document: concatenation in index order separated by the page delimiter. -/
def delimJoin (sep : List Char) : List (List Char) → List Char
  | [] => []
  | [t] => t
  | t :: rest => t ++ sep ++ delimJoin sep rest

/-! ## Image preprocessing (main.py lines 218-224)

`if img.width > 1000 or img.height > 1000`, `ratio = min(1000/W, 1000/H)`,
`new_size = (int(W*ratio), int(H*ratio))`.  This is CPython IEEE-754
double arithmetic, modelled exactly: a double is a dyadic rational
(significand times a power of two), every operation rounds its exact
result to 53 significant bits, to nearest with ties to even.  Exponents
are unbounded, which is faithful whenever no overflow, underflow or
subnormal arises — true for all the magnitudes reachable from dimensions
`1 ≤ W, H < 2^64` (the quotients stay between `1000/2^64` and `1000`,
far inside the normal range).
- `1000 / W`: CPython's int-by-int true division is the correctly
  rounded double of the exact quotient (`flDiv`);
- `min(u, v)`: returns `v` if `v < u` else `u`, comparing exact values
  (`pyMinFloat`);
- `W * ratio`: `W` is first converted to a double (`flNat`, exact below
  2^53, rounded above), then the product of the two doubles is rounded
  once (`flMul`);
- `int(x)`: truncation toward zero, which on these nonnegative values is
  the floor of the double's exact value (`dyTrunc`). -/

/-- A nonnegative dyadic rational `m * 2^e`: the exact value of a
(finite, nonnegative) IEEE-754 double with unbounded exponent range. -/
structure Dyadic where
  m : Nat
  e : Int
  deriving DecidableEq

/-- Bit length, by fuelled halving (fuel `n` suffices for input `n`). -/
def bitLenGo : Nat → Nat → Nat
  | 0, _ => 0
  | fuel + 1, n => if n = 0 then 0 else bitLenGo fuel (n / 2) + 1

def bitLen (n : Nat) : Nat := bitLenGo n n

/-- Round `q * 2^e` (plus an infinitesimal tail when `sticky` is set) to
53 significant bits, to nearest with ties to even.  Callers with a set
`sticky` guarantee `53 < bitLen q`, so the exact branch is only taken
for exactly representable values. -/
def rnd53 (q : Nat) (sticky : Bool) (e : Int) : Dyadic :=
  let L := bitLen q
  if L ≤ 53 then ⟨q, e⟩
  else
    let k := L - 53
    let h := 2 ^ (k - 1)
    let m0 := q / 2 ^ k
    let rem := q % 2 ^ k
    let up : Bool :=
      if h < rem then true
      else if rem < h then false
      else sticky || decide (m0 % 2 = 1)
    let m1 := if up then m0 + 1 else m0
    ⟨m1, e + k⟩

/-- Correctly rounded double quotient `a / b` of two naturals: scale `a`
by enough powers of two that the integer quotient carries 53 bits plus a
round bit, with the division remainder as sticky information. -/
def flDiv (a b : Nat) : Dyadic :=
  let F := bitLen b + 60
  let q := a * 2 ^ F / b
  let r := a * 2 ^ F % b
  rnd53 q (decide (r ≠ 0)) (-(F : Int))

/-- The double nearest a natural number (exact below 2^53). -/
def flNat (a : Nat) : Dyadic := rnd53 a false 0

/-- Correctly rounded double product: the exact product rounded once. -/
def flMul (x y : Dyadic) : Dyadic := rnd53 (x.m * y.m) false (x.e + y.e)

/-- Exact value comparison of two dyadics. -/
def dyLt (x y : Dyadic) : Bool :=
  let m := min x.e y.e
  decide (x.m * 2 ^ (x.e - m).toNat < y.m * 2 ^ (y.e - m).toNat)

/-- Python `min(u, v)`: `v` when `v < u`, else `u`. -/
def pyMinFloat (u v : Dyadic) : Dyadic := if dyLt v u then v else u

/-- Python `int()` on a nonnegative double: truncation toward zero. -/
def dyTrunc (x : Dyadic) : Nat :=
  if 0 ≤ x.e then x.m * 2 ^ x.e.toNat else x.m / 2 ^ (-x.e).toNat

/-- Embedding of the resize policy inside `process_page`, with the
source's float arithmetic modelled operation by operation. -/
def resize_policy (W H : Nat) : Nat × Nat :=
  if 1000 < W ∨ 1000 < H then
    let ratio := pyMinFloat (flDiv 1000 W) (flDiv 1000 H)
    (dyTrunc (flMul (flNat W) ratio), dyTrunc (flMul (flNat H) ratio))
  else (W, H)

/-- The exact value of a dyadic, for stating rounding-error bounds. -/
def dyVal (x : Dyadic) : ℚ := (x.m : ℚ) * (2 : ℚ) ^ x.e

/-- The resize policy as the spec words it: exact rational arithmetic
with `round` in place of the source's truncation; used to compare spec
and code. -/
def resizeSpecRound (W H : Nat) : Nat × Nat :=
  if 1000 < W ∨ 1000 < H then
    let ratio : ℚ := min ((1000 : ℚ) / W) ((1000 : ℚ) / H)
    ((round ((W : ℚ) * ratio)).toNat, (round ((H : ℚ) * ratio)).toNat)
  else (W, H)

/-! ## LaTeX to MathML conversion (main.py lines 250-270)

`re.sub(r'\$\$(.*?)\$\$', repl, text, flags=re.DOTALL)` followed by
`re.sub(r'\$(.*?)\$', repl, text, flags=re.DOTALL)`, where `repl`
converts the captured group and falls back to the whole match on
failure.  The converter `latex2mathml.converter.convert` is external:
it is the oracle `conv`, returning `none` when it raises.

For these two patterns, leftmost non-greedy matching is: the match
starts at the first delimiter occurrence, and the capture runs to the
next delimiter occurrence after it (DOTALL lets `.` cross newlines);
if no closing delimiter exists after the first opener, no occurrence of
the pattern remains in the text at all.  `re.sub` resumes scanning
after the consumed match, never inside a replacement.

The recursion is driven by a character-count fuel: every step consumes
at least one character, so `s.length` steps always suffice. -/

/-- Scan for the next `"$$"`; on success return the characters before it
and the characters after it. -/
def findClose2 : List Char → Option (List Char × List Char)
  | '$' :: '$' :: rest => some ([], rest)
  | c :: rest => (findClose2 rest).map (fun p => (c :: p.1, p.2))
  | [] => none

/-- Scan for the next `"$"`; on success return the characters before it
and the characters after it. -/
def findClose1 : List Char → Option (List Char × List Char)
  | [] => none
  | c :: rest =>
      if c = '$' then some ([], rest)
      else (findClose1 rest).map (fun p => (c :: p.1, p.2))

/-- One `re.sub` pass over the display pattern `\$\$(.*?)\$\$`. -/
def subDisplayGo (conv : List Char → Option (List Char)) :
    Nat → List Char → List Char
  | 0, s => s
  | fuel + 1, s =>
    match s with
    | '$' :: '$' :: rest =>
      match findClose2 rest with
      | some (g, r) =>
          (match conv g with
           | some m => m
           | none => '$' :: '$' :: (g ++ ['$', '$'])) ++ subDisplayGo conv fuel r
      | none => '$' :: '$' :: rest
    | c :: rest => c :: subDisplayGo conv fuel rest
    | [] => []

def subDisplay (conv : List Char → Option (List Char)) (s : List Char) :
    List Char :=
  subDisplayGo conv s.length s

/-- One `re.sub` pass over the inline pattern `\$(.*?)\$`. -/
def subInlineGo (conv : List Char → Option (List Char)) :
    Nat → List Char → List Char
  | 0, s => s
  | _ + 1, [] => []
  | fuel + 1, c :: rest =>
      if c = '$' then
        match findClose1 rest with
        | some (g, r) =>
            (match conv g with
             | some m => m
             | none => '$' :: (g ++ ['$'])) ++ subInlineGo conv fuel r
        | none => c :: rest
      else c :: subInlineGo conv fuel rest

def subInline (conv : List Char → Option (List Char)) (s : List Char) :
    List Char :=
  subInlineGo conv s.length s

/-- Embedding of `convert_latex_to_mathml`: the display pass feeds the
inline pass. -/
def convert_latex_to_mathml (conv : List Char → Option (List Char))
    (text : List Char) : List Char :=
  subInline conv (subDisplay conv text)

/-! ## Page-header removal (main.py lines 273-284)

`re.sub(r'## Page \d+\n\n', '', markdown_text)`: the pattern is a
literal, a greedy nonempty digit run, then two newlines.  Backtracking
out of `\d+` can never help (the following `\n` is not a digit), so
maximal-munch digits are exact. -/

def isDigitCh (c : Char) : Bool := '0' ≤ c && c ≤ '9'

/-- Drop the literal `p` from the front of `s`, or fail. -/
def dropLit : List Char → List Char → Option (List Char)
  | [], s => some s
  | _ :: _, [] => none
  | p :: ps, c :: cs => if c = p then dropLit ps cs else none

def pageHeaderLit : List Char := "## Page ".toList

/-- Try to match `## Page \d+\n\n` at the head of `s`; on success return
the remainder after the match. -/
def matchPageHeader (s : List Char) : Option (List Char) :=
  match dropLit pageHeaderLit s with
  | none => none
  | some r =>
      let ds := r.takeWhile isDigitCh
      let r2 := r.dropWhile isDigitCh
      if ds.isEmpty then none else dropLit nl2 r2

/-- The `re.sub` deletion loop, fueled by the character count (each step
consumes at least one character). -/
def removeHeadersGo : Nat → List Char → List Char
  | 0, s => s
  | _ + 1, [] => []
  | fuel + 1, c :: rest =>
    match matchPageHeader (c :: rest) with
    | some r => removeHeadersGo fuel r
    | none => c :: removeHeadersGo fuel rest

/-- Embedding of `remove_page_headers`. -/
def remove_page_headers (s : List Char) : List Char :=
  removeHeadersGo s.length s

/-- The text-processing front of `markdown_to_pdf` (lines 278-287):
header removal, then LaTeX-to-MathML conversion.  The subsequent
markdown/HTML/PDF rendering is an external collaborator and out of
scope; the claims about omitted text are decided here. -/
def markdown_to_pdfText (conv : List Char → Option (List Char))
    (text : List Char) : List Char :=
  convert_latex_to_mathml conv (remove_page_headers text)

/-! ## Trace of the sequential loop (main.py lines 557-571)

To settle claims about pacing, the loop body is embedded as the ordered
list of effects it performs per page: the status-text update, the image
display, the `process_page` call, the list write, and the progress
update.  A `sleep` constructor exists so that "a pause happens" is
expressible; the source loop contains no sleep call, so none is ever
emitted. -/

inductive UiEvent : Type
  | statusText (cur total : Nat)
  | showImage (i : Nat)
  | processed (i : Nat) (t : List Char)
  | storeResult (i : Nat)
  | progressUpd (cur total : Nat)
  | sleep (seconds : Nat)
  deriving DecidableEq

def UiEvent.isSleep : UiEvent → Bool
  | .sleep _ => true
  | _ => false

/-- The effects of one iteration of the sequential loop, in source order. -/
def seqPageEvents (work : Nat → List Char) (n i : Nat) : List UiEvent :=
  [.statusText (i + 1) n, .showImage i, .processed i (work i),
   .storeResult i, .progressUpd (i + 1) n]

/-- The effect trace of the whole sequential loop. -/
def seqTrace (work : Nat → List Char) (n : Nat) : List UiEvent :=
  (List.range n).foldl (fun acc i => acc ++ seqPageEvents work n i) []

/-- The `processed` events of a trace, with their payloads. -/
def UiEvent.processedOf : UiEvent → Option (Nat × List Char)
  | .processed i t => some (i, t)
  | _ => none

/-! ## Concrete conversion oracles and inputs used by individual claims -/

/-- A MathML rendering of `E=mc^2`, dollar-free like all real MathML. -/
def mathmlEnergy : List Char :=
  "<math><mi>E</mi><mo>=</mo><mi>m</mi><msup><mi>c</mi><mn>2</mn></msup></math>".toList

/-- Oracle for the spec's math-span scenario: converting `E=mc^2`
succeeds, converting anything else (in particular `x`) raises. -/
def convEnergy (g : List Char) : Option (List Char) :=
  if g = "E=mc^2".toList then some mathmlEnergy else none

/-- Oracle under which the display span's body `bad` fails to convert
while the empty span converts to `M`. -/
def convBadDisplay (g : List Char) : Option (List Char) :=
  if g = "bad".toList then none else some ['M']

/-- Oracle that converts every span to the fixed markup `<m/>`. -/
def convAlways (g : List Char) : Option (List Char) :=
  match g with
  | _ => some "<m/>".toList

/-- Oracle under which the display body `z` fails while the empty span
converts to `<m/>`. -/
def convFailZ (g : List Char) : Option (List Char) :=
  if g = ['z'] then none else some "<m/>".toList

/-- A document whose occurrences of `## Page <digits>` plus blank line are
genuine transcribed content, not separators. -/
def pageHeaderDoc : List Char :=
  "Quote: ## Page 12\n\nEnd of quote. ## Page 3\n\nTail.".toList

/-- What is left of `pageHeaderDoc` after header removal. -/
def pageHeaderDocStripped : List Char :=
  "Quote: End of quote. Tail.".toList

/-! ## Helper lemmas about the scheduling round -/

section SchedulerLemmas

variable {α : Type u}

theorem schedStep_eq (work : Nat → α) (results : List (Option α)) (j : Nat) :
    schedStep work results j = results.set j (some (work j)) := rfl

theorem foldl_schedStep_length (work : Nat → α) (order : List Nat)
    (acc : List (Option α)) :
    (order.foldl (schedStep work) acc).length = acc.length := by
  induction order generalizing acc with
  | nil => rfl
  | cons j rest ih =>
      rw [List.foldl_cons, ih, schedStep_eq, List.length_set]

theorem foldl_schedStep_getElem_not_mem (work : Nat → α) (order : List Nat)
    (acc : List (Option α)) (i : Nat) (h : i ∉ order) :
    (order.foldl (schedStep work) acc)[i]? = acc[i]? := by
  induction order generalizing acc with
  | nil => rfl
  | cons j rest ih =>
      rw [List.mem_cons, not_or] at h
      rw [List.foldl_cons, ih _ h.2, schedStep_eq,
        List.getElem?_set_ne (fun e => h.1 e.symm)]

theorem foldl_schedStep_getElem_mem (work : Nat → α) (order : List Nat)
    (i : Nat) :
    ∀ acc : List (Option α), i ∈ order → i < acc.length →
      (order.foldl (schedStep work) acc)[i]? = some (some (work i)) := by
  induction order with
  | nil => intro acc hmem _; cases hmem
  | cons j rest ih =>
      intro acc hmem hlt
      by_cases hr : i ∈ rest
      · rw [List.foldl_cons]
        exact ih _ hr (by rw [schedStep_eq, List.length_set]; exact hlt)
      · have hij : i = j := by
          rcases List.mem_cons.mp hmem with h | h
          · exact h
          · exact absurd h hr
        subst hij
        rw [List.foldl_cons, foldl_schedStep_getElem_not_mem work rest _ i hr,
          schedStep_eq, List.getElem?_set_self hlt]

theorem runParallel_length (n : Nat) (work : Nat → α) (order : List Nat) :
    (runParallel n work order).length = n := by
  rw [runParallel, foldl_schedStep_length, List.length_replicate]

theorem runParallel_getElem (n : Nat) (work : Nat → α) (order : List Nat)
    (h : order.Perm (List.range n)) (i : Nat) (hi : i < n) :
    (runParallel n work order)[i]? = some (some (work i)) := by
  refine foldl_schedStep_getElem_mem work order i _ ?_ ?_
  · exact h.mem_iff.mpr (List.mem_range.mpr hi)
  · rw [List.length_replicate]; exact hi

theorem runParallel_eq_map_range (n : Nat) (work : Nat → α)
    (order : List Nat) (h : order.Perm (List.range n)) :
    runParallel n work order = (List.range n).map (fun i => some (work i)) := by
  refine List.ext_getElem? fun i => ?_
  by_cases hi : i < n
  · rw [runParallel_getElem n work order h i hi, List.getElem?_map,
      List.getElem?_range hi]
    rfl
  · rw [List.getElem?_eq_none, List.getElem?_eq_none]
    · rw [List.length_map, List.length_range]; omega
    · rw [runParallel_length]; omega

theorem runSequential_eq_runParallel (n : Nat) (work : Nat → α) :
    runSequential n work = runParallel n work (List.range n) := rfl

theorem order_count_one (n : Nat) (order : List Nat)
    (h : order.Perm (List.range n)) (i : Nat) (hi : i < n) :
    order.count i = 1 := by
  rw [h.count_eq]
  exact List.count_eq_one_of_mem (List.nodup_range n) (List.mem_range.mpr hi)

end SchedulerLemmas

/-! ## Helper lemmas about assembly and stripping -/

theorem pyStrip_nl2_append (s : List Char) : pyStrip (nl2 ++ s) = pyStrip s := by
  have h : isPyWs '\n' = true := by decide
  simp [pyStrip, nl2, List.dropWhile, h]

theorem assembleAllText_map_some_aux (ts : List (List Char)) :
    ∀ a : List Char,
      (ts.map some).foldl (fun acc o => acc ++ nl2 ++ pyShowOpt o) a =
        a ++ (ts.map (fun t => nl2 ++ t)).flatten := by
  induction ts with
  | nil => intro a; simp
  | cons t rest ih =>
      intro a
      simp only [List.map_cons, List.foldl_cons, List.flatten_cons, ih]
      simp [pyShowOpt, List.append_assoc]

theorem flatten_nl2_eq_delimJoin (ts : List (List Char)) (h : ts ≠ []) :
    (ts.map (fun t => nl2 ++ t)).flatten = nl2 ++ delimJoin nl2 ts := by
  induction ts with
  | nil => exact absurd rfl h
  | cons t rest ih =>
      cases rest with
      | nil => simp [delimJoin]
      | cons t2 rest2 =>
          have h2 : (List.map (fun t => nl2 ++ t) (t2 :: rest2)).flatten =
              nl2 ++ delimJoin nl2 (t2 :: rest2) := ih (by simp)
          have h3 : delimJoin nl2 (t :: t2 :: rest2) =
              t ++ nl2 ++ delimJoin nl2 (t2 :: rest2) := rfl
          rw [List.map_cons, List.flatten_cons, h2, h3]
          simp [List.append_assoc]

theorem finalAllText_map_some (ts : List (List Char)) :
    finalAllText (ts.map some) = pyStrip (delimJoin nl2 ts) := by
  cases h : ts with
  | nil => rfl
  | cons t rest =>
      rw [finalAllText, assembleAllText, assembleAllText_map_some_aux,
        List.nil_append, flatten_nl2_eq_delimJoin _ (by simp), pyStrip_nl2_append]

/-! ## Helper lemmas about the sequential-loop trace -/

theorem seqTrace_eq_flatten (work : Nat → List Char) (n : Nat) :
    seqTrace work n = ((List.range n).map (seqPageEvents work n)).flatten := by
  rw [seqTrace]
  have aux : ∀ (l : List Nat) (a : List UiEvent),
      l.foldl (fun acc i => acc ++ seqPageEvents work n i) a =
        a ++ (l.map (seqPageEvents work n)).flatten := by
    intro l
    induction l with
    | nil => intro a; simp
    | cons j rest ih =>
        intro a
        simp only [List.foldl_cons, List.map_cons, List.flatten_cons, ih,
          List.append_assoc]
  rw [aux, List.nil_append]

theorem seqPageEvents_no_sleep (work : Nat → List Char) (n i : Nat) :
    (seqPageEvents work n i).countP (fun e => e.isSleep) = 0 := by
  simp [seqPageEvents, List.countP_cons, UiEvent.isSleep]

theorem seqPageEvents_processedOf (work : Nat → List Char) (n i : Nat) :
    (seqPageEvents work n i).filterMap UiEvent.processedOf = [(i, work i)] := rfl

/-! ## Helper lemmas about the inline math pass -/

theorem findClose1_no_dollar (g : List Char) (r : List Char) (h : '$' ∉ g) :
    findClose1 (g ++ '$' :: r) = some (g, r) := by
  induction g with
  | nil => simp [findClose1]
  | cons c g' ih =>
      rw [List.mem_cons, not_or] at h
      have hc : c ≠ '$' := fun e => h.1 e.symm
      rw [List.cons_append, findClose1, if_neg hc, ih h.2]
      rfl

theorem subInlineGo_nil (conv : List Char → Option (List Char)) (fuel : Nat) :
    subInlineGo conv fuel [] = [] := by
  cases fuel <;> rfl

theorem subInline_failed_span (conv : List Char → Option (List Char))
    (g : List Char) (hfail : conv g = none) (hg : '$' ∉ g) :
    subInline conv ('$' :: (g ++ ['$'])) = '$' :: (g ++ ['$']) := by
  have hlen : ('$' :: (g ++ ['$'])).length = g.length + 1 + 1 := by simp
  rw [subInline, hlen, subInlineGo, if_pos rfl, findClose1_no_dollar g [] hg]
  simp [hfail, subInlineGo_nil]

/-! ## Helper lemmas about the double-precision resize arithmetic

`dyVal_rnd53_le` is the one rounding-error fact everything rests on:
rounding up adds at most one unit in the last place, and the last place
is at most `2^-52` of the value, so every rounded result is at most
`(1 + 2^-52)` times the exact input.  Chaining it through the division,
the promotion of `W` and the product bounds each output dimension by
`1000 * (1 + 2^-52)^3 < 1001`, whose truncation is at most 1000. -/

theorem bitLenGo_zero (fuel : Nat) : bitLenGo fuel 0 = 0 := by cases fuel <;> rfl

theorem bitLenGo_lt (fuel : Nat) : ∀ n, n ≤ fuel → n < 2 ^ bitLenGo fuel n := by
  induction fuel with
  | zero =>
      intro n h
      have h0 : n = 0 := by omega
      subst h0
      simp [bitLenGo]
  | succ f ih =>
      intro n h
      by_cases h0 : n = 0
      · subst h0
        simp [bitLenGo_zero]
      · rw [bitLenGo, if_neg h0]
        have := ih (n / 2) (by omega)
        rw [pow_succ]
        omega

theorem bitLen_lt (n : Nat) : n < 2 ^ bitLen n := bitLenGo_lt n n le_rfl

theorem bitLenGo_pos (fuel n : Nat) (h : n ≤ fuel) (h1 : 1 ≤ n) :
    1 ≤ bitLenGo fuel n := by
  cases fuel with
  | zero => omega
  | succ f => rw [bitLenGo, if_neg (by omega)]; omega

theorem bitLenGo_le (fuel : Nat) :
    ∀ n, n ≤ fuel → 1 ≤ n → 2 ^ (bitLenGo fuel n - 1) ≤ n := by
  induction fuel with
  | zero => intro n h h1; omega
  | succ f ih =>
      intro n h h1
      rw [bitLenGo, if_neg (by omega)]
      by_cases h2 : n / 2 = 0
      · rw [h2, bitLenGo_zero]
        simpa using h1
      · have hrec := ih (n / 2) (by omega) (by omega)
        have hb1 : 1 ≤ bitLenGo f (n / 2) :=
          bitLenGo_pos f (n / 2) (by omega) (by omega)
        have hsp : 2 ^ bitLenGo f (n / 2) = 2 ^ (bitLenGo f (n / 2) - 1) * 2 := by
          rw [← pow_succ]
          congr 1
          omega
        have hgoal : bitLenGo f (n / 2) + 1 - 1 = bitLenGo f (n / 2) := by omega
        rw [hgoal, hsp]
        omega

theorem bitLen_le (n : Nat) (h1 : 1 ≤ n) : 2 ^ (bitLen n - 1) ≤ n :=
  bitLenGo_le n n le_rfl h1

theorem rnd53_cases (q : Nat) (s : Bool) (e : Int) :
    (bitLen q ≤ 53 ∧ rnd53 q s e = ⟨q, e⟩) ∨
    (53 < bitLen q ∧ (rnd53 q s e).e = e + ((bitLen q - 53 : Nat) : Int) ∧
      ((rnd53 q s e).m = q / 2 ^ (bitLen q - 53) ∨
       (rnd53 q s e).m = q / 2 ^ (bitLen q - 53) + 1)) := by
  by_cases hL : bitLen q ≤ 53
  · left
    exact ⟨hL, by rw [rnd53, if_pos hL]⟩
  · right
    refine ⟨by omega, by rw [rnd53, if_neg hL], ?_⟩
    rw [rnd53, if_neg hL]
    dsimp only
    split
    · right; rfl
    · split
      · left; rfl
      · split
        · right; rfl
        · left; rfl

theorem dyVal_nonneg (x : Dyadic) : 0 ≤ dyVal x := by
  rw [dyVal]
  positivity

theorem dyVal_rnd53_le (q : Nat) (s : Bool) (e : Int) :
    dyVal (rnd53 q s e) ≤ (q : ℚ) * (2 : ℚ) ^ e * (1 + (2 : ℚ) ^ (-52 : Int)) := by
  have hfac : (1 : ℚ) ≤ 1 + (2 : ℚ) ^ (-52 : Int) :=
    le_add_of_nonneg_right (by positivity)
  rcases rnd53_cases q s e with ⟨hL, hEq⟩ | ⟨hL, hE, hM⟩
  · rw [hEq]
    have hv : dyVal ⟨q, e⟩ = (q : ℚ) * (2 : ℚ) ^ e := rfl
    rw [hv]
    exact le_mul_of_one_le_right (by positivity) hfac
  · have hq1 : 1 ≤ q := by
      by_contra hq
      have h0 : q = 0 := by omega
      subst h0
      simp [bitLen, bitLenGo_zero] at hL
    set k := bitLen q - 53 with hk
    have hq52 : 2 ^ (k + 52) ≤ q := by
      have hb := bitLen_le q hq1
      have heq : bitLen q - 1 = k + 52 := by omega
      rwa [heq] at hb
    have hval : dyVal (rnd53 q s e) ≤
        (((q / 2 ^ k : Nat) : ℚ) + 1) * (2 : ℚ) ^ (e + (k : Int)) := by
      have hv : dyVal (rnd53 q s e) =
          ((rnd53 q s e).m : ℚ) * (2 : ℚ) ^ ((rnd53 q s e).e) := rfl
      rw [hv, hE]
      rcases hM with h | h <;> rw [h] <;> push_cast <;>
        refine mul_le_mul_of_nonneg_right (by linarith) (by positivity)
    have hdivle : ((q / 2 ^ k : Nat) : ℚ) ≤ (q : ℚ) / (2 : ℚ) ^ (k : Nat) := by
      have hc := Nat.cast_div_le (α := ℚ) (m := q) (n := 2 ^ k)
      push_cast at hc
      exact hc
    have hsplit : (2 : ℚ) ^ (e + (k : Int)) = (2 : ℚ) ^ e * (2 : ℚ) ^ (k : Nat) := by
      rw [zpow_add₀ (by norm_num : (2 : ℚ) ≠ 0), zpow_natCast]
    have h2k : (2 : ℚ) ^ (k : Nat) ≤ (q : ℚ) * (2 : ℚ) ^ (-52 : Int) := by
      have hcc : (2 : ℚ) ^ (k : Nat) * (2 : ℚ) ^ (52 : Nat) ≤ (q : ℚ) := by
        have hc : ((2 ^ (k + 52) : Nat) : ℚ) ≤ (q : ℚ) := by exact_mod_cast hq52
        push_cast at hc
        rw [pow_add] at hc
        exact hc
      have hneg : (2 : ℚ) ^ (-52 : Int) = ((2 : ℚ) ^ (52 : Nat))⁻¹ := by
        rw [zpow_neg]
        norm_num
      rw [hneg, ← div_eq_mul_inv, le_div_iff₀ (by positivity)]
      exact hcc
    calc dyVal (rnd53 q s e)
        ≤ (((q / 2 ^ k : Nat) : ℚ) + 1) * (2 : ℚ) ^ (e + (k : Int)) := hval
      _ ≤ ((q : ℚ) / (2 : ℚ) ^ (k : Nat) + 1) * (2 : ℚ) ^ (e + (k : Int)) := by
          refine mul_le_mul_of_nonneg_right (by linarith) (by positivity)
      _ = (q : ℚ) * (2 : ℚ) ^ e + (2 : ℚ) ^ (k : Nat) * (2 : ℚ) ^ e := by
          rw [hsplit]
          have hkne : ((2 : ℚ) ^ (k : Nat)) ≠ 0 := by positivity
          field_simp
          ring
      _ ≤ (q : ℚ) * (2 : ℚ) ^ e + ((q : ℚ) * (2 : ℚ) ^ (-52 : Int)) * (2 : ℚ) ^ e := by
          refine add_le_add_left (mul_le_mul_of_nonneg_right h2k (by positivity)) _
      _ = (q : ℚ) * (2 : ℚ) ^ e * (1 + (2 : ℚ) ^ (-52 : Int)) := by ring

theorem dyVal_flDiv_le (a b : Nat) (hb : 1 ≤ b) :
    dyVal (flDiv a b) ≤ ((a : ℚ) / (b : ℚ)) * (1 + (2 : ℚ) ^ (-52 : Int)) := by
  have hb0 : (0 : ℚ) < (b : ℚ) := by exact_mod_cast hb
  rw [flDiv]
  set F := bitLen b + 60 with hF
  have h1 := dyVal_rnd53_le (a * 2 ^ F / b) (decide (a * 2 ^ F % b ≠ 0)) (-(F : Int))
  have hq : ((a * 2 ^ F / b : Nat) : ℚ) ≤ (a : ℚ) * (2 : ℚ) ^ (F : Nat) / (b : ℚ) := by
    have hc := Nat.cast_div_le (α := ℚ) (m := a * 2 ^ F) (n := b)
    push_cast at hc
    exact hc
  have hcancel : (2 : ℚ) ^ (F : Nat) * (2 : ℚ) ^ (-(F : Int)) = 1 := by
    rw [← zpow_natCast (2 : ℚ) F, ← zpow_add₀ (by norm_num : (2 : ℚ) ≠ 0)]
    norm_num
  calc dyVal (rnd53 (a * 2 ^ F / b) (decide (a * 2 ^ F % b ≠ 0)) (-(F : Int)))
      ≤ ((a * 2 ^ F / b : Nat) : ℚ) * (2 : ℚ) ^ (-(F : Int)) *
          (1 + (2 : ℚ) ^ (-52 : Int)) := h1
    _ ≤ (a : ℚ) * (2 : ℚ) ^ (F : Nat) / (b : ℚ) * (2 : ℚ) ^ (-(F : Int)) *
          (1 + (2 : ℚ) ^ (-52 : Int)) := by
        refine mul_le_mul_of_nonneg_right
          (mul_le_mul_of_nonneg_right hq (by positivity)) (by positivity)
    _ = (a : ℚ) / (b : ℚ) * ((2 : ℚ) ^ (F : Nat) * (2 : ℚ) ^ (-(F : Int))) *
          (1 + (2 : ℚ) ^ (-52 : Int)) := by ring
    _ = (a : ℚ) / (b : ℚ) * (1 + (2 : ℚ) ^ (-52 : Int)) := by
        rw [hcancel]
        ring

theorem dyVal_flNat_le (a : Nat) :
    dyVal (flNat a) ≤ (a : ℚ) * (1 + (2 : ℚ) ^ (-52 : Int)) := by
  have h := dyVal_rnd53_le a false 0
  simpa using h

theorem dyVal_flMul_le (x y : Dyadic) :
    dyVal (flMul x y) ≤ dyVal x * dyVal y * (1 + (2 : ℚ) ^ (-52 : Int)) := by
  have h := dyVal_rnd53_le (x.m * y.m) false (x.e + y.e)
  calc dyVal (flMul x y)
      ≤ ((x.m * y.m : Nat) : ℚ) * (2 : ℚ) ^ (x.e + y.e) *
          (1 + (2 : ℚ) ^ (-52 : Int)) := h
    _ = dyVal x * dyVal y * (1 + (2 : ℚ) ^ (-52 : Int)) := by
        rw [dyVal, dyVal, zpow_add₀ (by norm_num : (2 : ℚ) ≠ 0)]
        push_cast
        ring

theorem dyVal_scaled (x : Dyadic) (m : Int) (hm : m ≤ x.e) :
    dyVal x = ((x.m * 2 ^ (x.e - m).toNat : Nat) : ℚ) * (2 : ℚ) ^ m := by
  rw [dyVal]
  push_cast
  rw [mul_assoc]
  congr 1
  rw [← zpow_natCast (2 : ℚ) (x.e - m).toNat,
    ← zpow_add₀ (by norm_num : (2 : ℚ) ≠ 0)]
  congr 1
  omega

theorem dyLt_iff (x y : Dyadic) : dyLt x y = true ↔ dyVal x < dyVal y := by
  rw [dyLt]
  simp only [decide_eq_true_eq]
  rw [dyVal_scaled x (min x.e y.e) (min_le_left _ _),
    dyVal_scaled y (min x.e y.e) (min_le_right _ _),
    mul_lt_mul_right (by positivity), Nat.cast_lt]

theorem pyMinFloat_le_left (u v : Dyadic) : dyVal (pyMinFloat u v) ≤ dyVal u := by
  rw [pyMinFloat]
  by_cases h : dyLt v u = true
  · rw [if_pos h]
    exact le_of_lt ((dyLt_iff v u).mp h)
  · rw [if_neg h]

theorem pyMinFloat_le_right (u v : Dyadic) : dyVal (pyMinFloat u v) ≤ dyVal v := by
  rw [pyMinFloat]
  by_cases h : dyLt v u = true
  · rw [if_pos h]
  · rw [if_neg h]
    exact le_of_not_lt (fun hc => h ((dyLt_iff v u).mpr hc))

theorem dyTrunc_le_val (x : Dyadic) : (dyTrunc x : ℚ) ≤ dyVal x := by
  rw [dyTrunc, dyVal]
  split
  · rename_i h
    push_cast
    rw [← zpow_natCast (2 : ℚ) x.e.toNat]
    have he : ((x.e.toNat : ℤ)) = x.e := by omega
    rw [he]
  · rename_i h
    have hle : ((x.m / 2 ^ (-x.e).toNat : Nat) : ℚ) ≤
        (x.m : ℚ) / (2 : ℚ) ^ ((-x.e).toNat) := by
      have hc := Nat.cast_div_le (α := ℚ) (m := x.m) (n := 2 ^ (-x.e).toNat)
      push_cast at hc
      exact hc
    calc ((x.m / 2 ^ (-x.e).toNat : Nat) : ℚ)
        ≤ (x.m : ℚ) / (2 : ℚ) ^ ((-x.e).toNat) := hle
      _ = (x.m : ℚ) * (2 : ℚ) ^ x.e := by
          have hj : (((-x.e).toNat : ℕ) : ℤ) = -x.e := by omega
          rw [div_eq_mul_inv, ← zpow_natCast (2 : ℚ) ((-x.e).toNat), hj,
            ← zpow_neg, neg_neg]

theorem resize_policy_dims_le (W H : Nat) (hW : 1 ≤ W) (hH : 1 ≤ H) :
    (resize_policy W H).1 ≤ 1000 ∧ (resize_policy W H).2 ≤ 1000 := by
  rw [resize_policy]
  by_cases hbig : 1000 < W ∨ 1000 < H
  · rw [if_pos hbig]
    dsimp only
    have key : ∀ A : Nat, 1 ≤ A →
        dyVal (pyMinFloat (flDiv 1000 W) (flDiv 1000 H)) ≤
          ((1000 : ℚ) / (A : ℚ)) * (1 + (2 : ℚ) ^ (-52 : Int)) →
        dyTrunc (flMul (flNat A) (pyMinFloat (flDiv 1000 W) (flDiv 1000 H))) ≤
          1000 := by
      intro A hA hrle
      set ratio := pyMinFloat (flDiv 1000 W) (flDiv 1000 H) with hr
      have hA0 : (0 : ℚ) < (A : ℚ) := by exact_mod_cast hA
      have h1 := dyVal_flMul_le (flNat A) ratio
      have h2 := dyVal_flNat_le A
      have h3 : dyVal (flMul (flNat A) ratio) ≤
          ((A : ℚ) * (1 + (2 : ℚ) ^ (-52 : Int))) *
            (((1000 : ℚ) / (A : ℚ)) * (1 + (2 : ℚ) ^ (-52 : Int))) *
            (1 + (2 : ℚ) ^ (-52 : Int)) := by
        calc dyVal (flMul (flNat A) ratio)
            ≤ dyVal (flNat A) * dyVal ratio * (1 + (2 : ℚ) ^ (-52 : Int)) := h1
          _ ≤ _ := by
              refine mul_le_mul_of_nonneg_right ?_ (by positivity)
              exact mul_le_mul h2 hrle (dyVal_nonneg _) (by positivity)
      have h4 : ((A : ℚ) * (1 + (2 : ℚ) ^ (-52 : Int))) *
            (((1000 : ℚ) / (A : ℚ)) * (1 + (2 : ℚ) ^ (-52 : Int))) *
            (1 + (2 : ℚ) ^ (-52 : Int)) =
          1000 * (1 + (2 : ℚ) ^ (-52 : Int)) ^ 3 := by
        field_simp
        ring
      have hzp : (2 : ℚ) ^ (-52 : Int) = 1 / 4503599627370496 := by norm_num
      have h5 : (1000 : ℚ) * (1 + (2 : ℚ) ^ (-52 : Int)) ^ 3 < 1001 := by
        rw [hzp]
        norm_num
      have h6 : dyVal (flMul (flNat A) ratio) < 1001 := by
        calc dyVal (flMul (flNat A) ratio)
            ≤ _ := h3
          _ = 1000 * (1 + (2 : ℚ) ^ (-52 : Int)) ^ 3 := h4
          _ < 1001 := h5
      have h7 : (dyTrunc (flMul (flNat A) ratio) : ℚ) < 1001 :=
        lt_of_le_of_lt (dyTrunc_le_val _) h6
      have h8 : dyTrunc (flMul (flNat A) ratio) < 1001 := by exact_mod_cast h7
      omega
    constructor
    · exact key W hW (le_trans (pyMinFloat_le_left _ _) (dyVal_flDiv_le 1000 W hW))
    · exact key H hH (le_trans (pyMinFloat_le_right _ _) (dyVal_flDiv_le 1000 H hH))
  · rw [if_neg hbig]
    constructor <;> dsimp only <;> omega

/-! ## Claim theorems -/

/-- Claim C1: for every batch of `n ≥ 0` pages and every completion order
of the worker pool (an arbitrary permutation of the job indices, covering
every `maxWorkers ≥ 1`, every per-job delay and every per-job failure —
the unit of work is arbitrary and total, failures being error texts), the
scheduling round yields a result list of exactly length `n`; slot `i`
holds precisely the result produced for job `i`, and with the full
`process_page` pair stored, slot `i` holds `(i, work i)`, i.e.
`result[i].index == i`; and slot `i` is written exactly once during the
round (writes to slot `i` are the occurrences of `i` in the completion
order), so every slot is populated exactly once and no slot is ever
overwritten. -/
theorem scheduler_round_slots {α : Type u} (n : Nat) (work : Nat → α)
    (order : List Nat) (h : order.Perm (List.range n)) :
    (runParallel n work order).length = n ∧
    (∀ i, i < n → (runParallel n work order)[i]? = some (some (work i))) ∧
    (∀ i, i < n →
      (runParallel n (process_page work) order)[i]? = some (some (i, work i))) ∧
    (∀ i, i < n → order.count i = 1) :=
  ⟨runParallel_length n work order,
   fun i hi => runParallel_getElem n work order h i hi,
   fun i hi => runParallel_getElem n (process_page work) order h i hi,
   fun i hi => order_count_one n order h i hi⟩

/-- Witness for C1: a concrete 3-page round completing in order 2, 0, 1. -/
theorem scheduler_round_slots_witness :
    (runParallel 3 (fun i => i * 10) [2, 0, 1]).length = 3 ∧
    (runParallel 3 (fun i => i * 10) [2, 0, 1])[1]? = some (some 10) ∧
    (runParallel 3 (process_page fun i => i * 10) [2, 0, 1])[1]? =
      some (some (1, 10)) ∧
    [2, 0, 1].count 1 = 1 :=
  ⟨(scheduler_round_slots 3 (fun i => i * 10) [2, 0, 1] (by decide)).1,
   (scheduler_round_slots 3 (fun i => i * 10) [2, 0, 1] (by decide)).2.1 1
     (by decide),
   (scheduler_round_slots 3 (fun i => i * 10) [2, 0, 1] (by decide)).2.2.1 1
     (by decide),
   (scheduler_round_slots 3 (fun i => i * 10) [2, 0, 1] (by decide)).2.2.2 1
     (by decide)⟩

/-- Claim C2: a job whose unit of work (the transcription or translation
adapter call) raises is caught and converted to the error text
`"<adapter-kind> error: <message>"` stored at that job's own slot — the
slot is populated, the exception never reaches the scheduler's caller
(the embedded adapters are total functions), and sibling jobs whose own
calls succeed keep their Ok texts.  `transcribe_image` yields
`"Transcription error: <message>"` and `translate_to_arabic` yields
`"Translation error: <message>"`. -/
theorem job_failure_contained (n k : Nat) (e : List Char)
    (resp : Nat → ApiOutcome) (tresp : Nat → CallOutcome) (order : List Nat)
    (h : order.Perm (List.range n)) (hk : k < n)
    (hfail : resp k = .raised e) (htfail : tresp k = .raised e) :
    ((runParallel n (fun i => transcribe_image (resp i)) order)[k]? =
        some (some (transcriptionErrorTag ++ e)) ∧
      ∀ j t, j < n → j ≠ k → resp j = .ok t →
        (runParallel n (fun i => transcribe_image (resp i)) order)[j]? =
          some (some t)) ∧
    ((runParallel n (fun i => translate_to_arabic (tresp i)) order)[k]? =
        some (some (translationErrorTag ++ e)) ∧
      ∀ j t, j < n → j ≠ k → tresp j = .ok t →
        (runParallel n (fun i => translate_to_arabic (tresp i)) order)[j]? =
          some (some t)) := by
  refine ⟨⟨?_, ?_⟩, ?_, ?_⟩
  · rw [runParallel_getElem n (fun i => transcribe_image (resp i)) order h k hk,
      hfail]
    rfl
  · intro j t hj _ hok
    rw [runParallel_getElem n (fun i => transcribe_image (resp i)) order h j hj,
      hok]
    rfl
  · rw [runParallel_getElem n (fun i => translate_to_arabic (tresp i)) order h k
      hk, htfail]
    rfl
  · intro j t hj _ hok
    rw [runParallel_getElem n (fun i => translate_to_arabic (tresp i)) order h j
      hj, hok]
    rfl

/-- Witness for C2: two pages, page 0's calls raise `boom`, page 1's
succeed; completion order 1, 0. -/
theorem job_failure_contained_witness :
    (runParallel 2
        (fun i => transcribe_image
          (if i = 0 then .raised "boom".toList else .ok "hello".toList))
        [1, 0])[0]? =
      some (some (transcriptionErrorTag ++ "boom".toList)) ∧
    (runParallel 2
        (fun i => transcribe_image
          (if i = 0 then .raised "boom".toList else .ok "hello".toList))
        [1, 0])[1]? = some (some "hello".toList) ∧
    (runParallel 2
        (fun i => translate_to_arabic
          (if i = 0 then .raised "boom".toList else .ok "salam".toList))
        [1, 0])[0]? =
      some (some (translationErrorTag ++ "boom".toList)) ∧
    (runParallel 2
        (fun i => translate_to_arabic
          (if i = 0 then .raised "boom".toList else .ok "salam".toList))
        [1, 0])[1]? = some (some "salam".toList) :=
  ⟨(job_failure_contained 2 0 "boom".toList
      (fun i => if i = 0 then .raised "boom".toList else .ok "hello".toList)
      (fun i => if i = 0 then .raised "boom".toList else .ok "salam".toList)
      [1, 0] (by decide) (by decide) rfl rfl).1.1,
   (job_failure_contained 2 0 "boom".toList
      (fun i => if i = 0 then .raised "boom".toList else .ok "hello".toList)
      (fun i => if i = 0 then .raised "boom".toList else .ok "salam".toList)
      [1, 0] (by decide) (by decide) rfl rfl).1.2 1 "hello".toList (by decide)
      (by decide) rfl,
   (job_failure_contained 2 0 "boom".toList
      (fun i => if i = 0 then .raised "boom".toList else .ok "hello".toList)
      (fun i => if i = 0 then .raised "boom".toList else .ok "salam".toList)
      [1, 0] (by decide) (by decide) rfl rfl).2.1,
   (job_failure_contained 2 0 "boom".toList
      (fun i => if i = 0 then .raised "boom".toList else .ok "hello".toList)
      (fun i => if i = 0 then .raised "boom".toList else .ok "salam".toList)
      [1, 0] (by decide) (by decide) rfl rfl).2.2 1 "salam".toList (by decide)
      (by decide) rfl⟩

/-- Claim C4: for every batch and every deterministic per-job unit of
work, the concurrent round — whatever order completions arrive in —
produces exactly the result list of the sequential loop, which executes
jobs in submission order one at a time: sequential execution is a
degenerate case of the same contract, not a behaviourally different
path. -/
theorem sequential_equals_parallel {α : Type u} (n : Nat) (work : Nat → α)
    (order : List Nat) (h : order.Perm (List.range n)) :
    runParallel n work order = runSequential n work := by
  rw [runSequential_eq_runParallel, runParallel_eq_map_range n work order h,
    runParallel_eq_map_range n work (List.range n) (List.Perm.refl _)]

/-- Witness for C4: a concrete 4-page batch completing in order 3, 1, 0, 2. -/
theorem sequential_equals_parallel_witness :
    runParallel 4 (fun i => i + 100) [3, 1, 0, 2] =
      runSequential 4 (fun i => i + 100) :=
  sequential_equals_parallel 4 (fun i => i + 100) [3, 1, 0, 2] (by decide)

/-- Claim C3 (counterexample): on a 2000×999 image every double involved
is exact (`0.5`, `1000.0`, `499.5`), so the code computes
`int(999 * 0.5) = int(499.5) = 499` — truncation — while the claim's
`round(999 * 0.5) = 500`; the code's result is not the claimed one. -/
theorem resize_round_counterexample :
    resize_policy 2000 999 = (1000, 499) ∧
    resizeSpecRound 2000 999 = (1000, 500) ∧
    resize_policy 2000 999 ≠ resizeSpecRound 2000 999 := by
  have h1 : resize_policy 2000 999 = (1000, 499) := by decide
  have h2 : resizeSpecRound 2000 999 = (1000, 500) := by
    norm_num [resizeSpecRound, round_eq]
    decide
  refine ⟨h1, h2, ?_⟩
  rw [h1, h2]
  decide

/-- Claim C3 (amended): an image with `W ≤ 1000` and `H ≤ 1000` passes
through unchanged; otherwise the preprocessor computes
`ratio = min(1000/W, 1000/H)` and resizes to
`(int(W*ratio), int(H*ratio))` in IEEE-754 double arithmetic, `int()`
truncating toward zero — not `round`, and not exact rational
arithmetic — and both output dimensions are bounded by 1000 (for any
dimensions ≥ 1, from the `(1+2^-52)` per-operation rounding bound).  In
particular a 2000×500 image resizes to 1000×250 and an 800×600 image is
unchanged — but a 2000×999 image resizes to (1000, 499) where the
claimed `round` gives 500, and a 49000×100 image resizes to (999, 2)
where even the exact-arithmetic floor would give 1000: the computed
double `1000/49000 = 5882252574524729 * 2^-58` lies just below `1/49`,
so `49000 * ratio` rounds to just under 1000 and truncates to 999. -/
theorem resize_policy_truncates (W H : Nat) (hW : 1 ≤ W) (hH : 1 ≤ H) :
    (W ≤ 1000 → H ≤ 1000 → resize_policy W H = (W, H)) ∧
    (resize_policy W H).1 ≤ 1000 ∧ (resize_policy W H).2 ≤ 1000 ∧
    resize_policy 2000 500 = (1000, 250) ∧
    resize_policy 800 600 = (800, 600) ∧
    resize_policy 2000 999 = (1000, 499) ∧
    resize_policy 49000 100 = (999, 2) ∧
    flDiv 1000 49000 = ⟨5882252574524729, -58⟩ ∧
    ⌊(49000 : ℚ) * ((1000 : ℚ) / 49000)⌋ = 1000 := by
  refine ⟨?_, (resize_policy_dims_le W H hW hH).1,
    (resize_policy_dims_le W H hW hH).2, by decide, by decide, by decide,
    by decide, by decide, by norm_num⟩
  intro h1 h2
  rw [resize_policy, if_neg (by omega)]

/-- Witness for C3's amended theorem, instantiated at the 2000×500 page. -/
theorem resize_policy_truncates_witness :
    (resize_policy 2000 500).1 ≤ 1000 ∧ (resize_policy 2000 500).2 ≤ 1000 ∧
    resize_policy 2000 500 = (1000, 250) ∧
    resize_policy 800 600 = (800, 600) ∧
    resize_policy 2000 999 = (1000, 499) ∧
    resize_policy 49000 100 = (999, 2) :=
  ⟨(resize_policy_truncates 2000 500 (by decide) (by decide)).2.1,
   (resize_policy_truncates 2000 500 (by decide) (by decide)).2.2.1,
   (resize_policy_truncates 2000 500 (by decide) (by decide)).2.2.2.1,
   (resize_policy_truncates 2000 500 (by decide) (by decide)).2.2.2.2.1,
   (resize_policy_truncates 2000 500 (by decide) (by decide)).2.2.2.2.2.1,
   (resize_policy_truncates 2000 500 (by decide) (by decide)).2.2.2.2.2.2.1⟩

/-- Claim C5: for every completed round, the stored document equals the
per-page result texts (successful and failed alike) joined in ascending
index order by the page delimiter `"\n\n"`, with leading and trailing
whitespace stripped from the whole; and assembling the results of two
runs of the same round (any two completion orders, same deterministic
work) yields the same document. -/
theorem assembled_document_join (n : Nat) (work : Nat → List Char)
    (order1 order2 : List Nat) (h1 : order1.Perm (List.range n))
    (h2 : order2.Perm (List.range n)) :
    finalAllText (runParallel n work order1) =
      pyStrip (delimJoin nl2 ((List.range n).map work)) ∧
    finalAllText (runParallel n work order1) =
      finalAllText (runParallel n work order2) := by
  have e1 : runParallel n work order1 = ((List.range n).map work).map some := by
    rw [runParallel_eq_map_range n work order1 h1, List.map_map]
    rfl
  have e2 : runParallel n work order2 = ((List.range n).map work).map some := by
    rw [runParallel_eq_map_range n work order2 h2, List.map_map]
    rfl
  exact ⟨by rw [e1, finalAllText_map_some], by rw [e1, e2]⟩

/-- Witness for C5: two pages, delivered in reverse order versus in
submission order. -/
theorem assembled_document_join_witness :
    finalAllText (runParallel 2
        (fun i => if i = 0 then "P1".toList else "P2".toList) [1, 0]) =
      pyStrip (delimJoin nl2 ((List.range 2).map
        (fun i => if i = 0 then "P1".toList else "P2".toList))) ∧
    finalAllText (runParallel 2
        (fun i => if i = 0 then "P1".toList else "P2".toList) [1, 0]) =
      finalAllText (runParallel 2
        (fun i => if i = 0 then "P1".toList else "P2".toList) [0, 1]) :=
  ⟨(assembled_document_join 2 (fun i => if i = 0 then "P1".toList else "P2".toList)
      [1, 0] [0, 1] (by decide) (by decide)).1,
   (assembled_document_join 2 (fun i => if i = 0 then "P1".toList else "P2".toList)
      [1, 0] [0, 1] (by decide) (by decide)).2⟩

/-- Claim C6 (counterexample): a batch of two jobs processed by the
sequential loop produces a trace with both executions and not a single
delay step anywhere — the claimed fixed inter-request pause between
consecutive remote calls does not exist in the code. -/
theorem sequential_pause_counterexample :
    (seqTrace (fun _ => "T".toList) 2).countP (fun e => e.isSleep) = 0 ∧
    (seqTrace (fun _ => "T".toList) 2).countP
      (fun e => (UiEvent.processedOf e).isSome) = 2 := by
  decide

/-- Claim C6 (amended): the sequential loop performs no inter-request
pause at all: for every batch its effect trace contains no sleep/delay
step, and the remote calls run back-to-back in submission order — the
processed events are exactly `(0, work 0), ..., (n-1, work (n-1))`. -/
theorem sequential_no_pause (work : Nat → List Char) (n : Nat) :
    (seqTrace work n).countP (fun e => e.isSleep) = 0 ∧
    (seqTrace work n).filterMap UiEvent.processedOf =
      (List.range n).map (fun i => (i, work i)) := by
  rw [seqTrace_eq_flatten]
  constructor
  · induction List.range n with
    | nil => rfl
    | cons j rest ih =>
        rw [List.map_cons, List.flatten_cons, List.countP_append,
          seqPageEvents_no_sleep, ih]
  · induction List.range n with
    | nil => rfl
    | cons j rest ih =>
        rw [List.map_cons, List.flatten_cons, List.filterMap_append,
          seqPageEvents_processedOf, List.map_cons, ih]
        rfl

/-- Claim C7 (counterexample): under an oracle where converting `bad`
raises and converting the empty span succeeds as `M`, the input
`"$$bad$$"` — a display span whose conversion fails — is not preserved:
the inline pass pairs the leftover `$$` delimiters, and the output
`"MbadM"` no longer contains the span's original text. -/
theorem failed_display_span_rewritten :
    convBadDisplay "bad".toList = none ∧
    convert_latex_to_mathml convBadDisplay "$$bad$$".toList = "MbadM".toList ∧
    strContains (convert_latex_to_mathml convBadDisplay "$$bad$$".toList)
      "$$bad$$".toList = false := by
  decide

/-- Claim C7 (amended): the converter extracts and converts every
`$$...$$` display span, then every `$...$` inline span, each span
independently; an inline span whose conversion fails is kept verbatim,
delimiters included; a display span whose conversion fails is kept by
the display pass, though the subsequent inline pass may consume its
delimiters.  On `"Energy: $$E=mc^2$$ and $x$"` with conversion of `x`
forced to fail, the display span becomes its MathML equivalent and `$x$`
stays verbatim. -/
theorem math_span_fallback (conv : List Char → Option (List Char))
    (g : List Char) (hfail : conv g = none) (hg : '$' ∉ g) :
    subInline conv ('$' :: (g ++ ['$'])) = '$' :: (g ++ ['$']) ∧
    convert_latex_to_mathml convEnergy "Energy: $$E=mc^2$$ and $x$".toList =
      "Energy: ".toList ++ mathmlEnergy ++ " and $x$".toList :=
  ⟨subInline_failed_span conv g hfail hg, by decide⟩

/-- Witness for C7's amended theorem at the failing span `x`. -/
theorem math_span_fallback_witness :
    subInline convEnergy ('$' :: ("x".toList ++ ['$'])) =
      '$' :: ("x".toList ++ ['$']) ∧
    convert_latex_to_mathml convEnergy "Energy: $$E=mc^2$$ and $x$".toList =
      "Energy: ".toList ++ mathmlEnergy ++ " and $x$".toList :=
  ⟨(math_span_fallback convEnergy "x".toList (by decide) (by decide)).1,
   (math_span_fallback convEnergy "x".toList (by decide) (by decide)).2⟩

/-- Claim C8: a transcription failure with a `GoogleAPIError` whose
message contains "403" yields the generic error text with the
authentication/authorization guidance appended — distinguishable from
the generic text, which is all an API error without "403" yields. -/
theorem auth_error_guidance (e : List Char) :
    (strContains e "403".toList = true →
      transcribe_image (.apiError e) =
        transcriptionErrorTag ++ (geminiApiErrorTag ++ e ++ authGuidance)) ∧
    (strContains e "403".toList = false →
      transcribe_image (.apiError e) =
        transcriptionErrorTag ++ (geminiApiErrorTag ++ e)) ∧
    transcriptionErrorTag ++ (geminiApiErrorTag ++ e ++ authGuidance) ≠
      transcriptionErrorTag ++ (geminiApiErrorTag ++ e) := by
  have hdef : transcribe_image (.apiError e) =
      transcriptionErrorTag ++ (geminiApiErrorTag ++ e ++
        (if strContains e "403".toList = true then authGuidance else [])) := rfl
  refine ⟨fun h => ?_, fun h => ?_, fun hEq => ?_⟩
  · rw [hdef, if_pos h]
  · rw [hdef, if_neg (by rw [h]; exact Bool.false_ne_true), List.append_nil]
  · have h1 : geminiApiErrorTag ++ e ++ authGuidance = geminiApiErrorTag ++ e :=
      List.append_cancel_left hEq
    have h2 := congrArg List.length h1
    simp only [List.length_append] at h2
    have h3 : authGuidance.length = 0 := by omega
    have h4 : authGuidance = [] := List.length_eq_zero.mp h3
    exact absurd h4 (by decide)

/-- Witness for C8: one API error message containing "403", one without. -/
theorem auth_error_guidance_witness :
    transcribe_image (.apiError "HTTP 403 Forbidden".toList) =
      transcriptionErrorTag ++
        (geminiApiErrorTag ++ "HTTP 403 Forbidden".toList ++ authGuidance) ∧
    transcribe_image (.apiError "server timeout".toList) =
      transcriptionErrorTag ++ (geminiApiErrorTag ++ "server timeout".toList) :=
  ⟨(auth_error_guidance "HTTP 403 Forbidden".toList).1 (by decide),
   (auth_error_guidance "server timeout".toList).2.1 (by decide)⟩

/-- Claim C9: `markdown_to_pdf` first deletes every substring matching
`## Page <digits>` followed by a blank line, wherever it occurs — here
two occurrences that are genuine document content, mid-sentence — so the
text handed to PDF rendering omits text present in the assembled
document. -/
theorem header_removal_deletes_content :
    remove_page_headers pageHeaderDoc = pageHeaderDocStripped ∧
    markdown_to_pdfText (fun _ => none) pageHeaderDoc = pageHeaderDocStripped ∧
    strContains pageHeaderDoc "## Page 12\n\n".toList = true ∧
    strContains pageHeaderDoc "## Page 3\n\n".toList = true ∧
    strContains pageHeaderDocStripped "## Page".toList = false := by
  decide

/-- Claim C10: the inline pass pairs the two earliest remaining `$`
characters: in `"costs $5 and $10 total"` the prose `5 and ` between two
literal dollar signs is captured as an inline LaTeX span, submitted to
conversion and rewritten away; and a `$$...$$` span left in place after
its display conversion failed (here `$$z$$` with `z` failing) has its
delimiters re-paired by the inline pass, rewriting non-math text. -/
theorem inline_pass_rewrites_nonmath :
    convert_latex_to_mathml convAlways "costs $5 and $10 total".toList =
      "costs <m/>10 total".toList ∧
    strContains "costs $5 and $10 total".toList "5 and".toList = true ∧
    strContains (convert_latex_to_mathml convAlways
      "costs $5 and $10 total".toList) "5 and".toList = false ∧
    convFailZ ['z'] = none ∧
    convert_latex_to_mathml convFailZ "$$z$$".toList = "<m/>z<m/>".toList := by
  decide

end Pdflatte
